import Mathlib

/-!
Shallow embedding of `complexDissect.py`: the short-to-long converter
(`convertToLong`), the complex-loading and pairwise-comparison phases of
`compareSets`, and the component-to-ortholog-group mapping phase of
`compareSpecies`.  Python dictionaries are modelled as association lists
with in-place update on an existing key and append on a fresh key, which
matches CPython insertion behaviour; fallible code (uncaught `IndexError`
on a too-short row) is modelled with `Option`.  Floating-point divisions
are modelled over `ℚ`.
-/

namespace ComplexDissect

/-- One whitespace-split line of an input file (the list of its fields). -/
abbrev Row := List String

/-- Python dict lookup `d[k]` (as `Option`): first entry with the key. -/
def dictGet {α : Type} (k : String) : List (String × α) → Option α
  | [] => none
  | (k', v) :: rest => if k' = k then some v else dictGet k rest

/-- Python dict assignment `d[k] = v`: update in place if the key exists,
append at the end otherwise. -/
def dictSet {α : Type} (k : String) (v : α) : List (String × α) → List (String × α)
  | [] => [(k, v)]
  | (k', v') :: rest => if k' = k then (k, v) :: rest else (k', v') :: dictSet k v rest

/-- Keys of a modelled dict, in order. -/
def dictKeys {α : Type} (d : List (String × α)) : List String := d.map Prod.fst

/-- Lines 167-170 / 176-179 of `complexDissect.py`: append a member to the
complex's list if the complex is already a key, otherwise start a fresh
singleton list. -/
def dictAppend (d : List (String × List String)) (k : String) (m : String) :
    List (String × List String) :=
  match dictGet k d with
  | some ms => dictSet k (ms ++ [m]) d
  | none => dictSet k [m] d

/-- Lines 136-140 of `complexDissect.py` (`convertToLong`): build the
`complex_members` dict from the data rows of a short-format file.  A row
`label :: members` assigns `complex_members[label] = members` (overwriting
any earlier row with the same label); an empty row raises `IndexError` on
`line_content[0]`, modelled as `none`. -/
def convertToLongDict : List Row → List (String × List String) →
    Option (List (String × List String))
  | [], d => some d
  | [] :: _, _ => none
  | (label :: members) :: rest, d => convertToLongDict rest (dictSet label members d)

/-- Lines 145-147 of `complexDissect.py`: the `(member, label)` pairs written
to the long-format file, one per member of each complex, complexes in dict
order. -/
def longPairs (d : List (String × List String)) : List (String × String) :=
  d.flatMap fun p => p.2.map fun m => (m, p.1)

/-- The whole of `convertToLong` (lines 132-148): the rows of the produced
long-format file, or `none` if the conversion raises. -/
def convertToLong (rows : List Row) : Option (List (String × String)) :=
  (convertToLongDict rows []).map longPairs

/-- Lines 162-179 of `complexDissect.py`: the file-loading phase of
`compareSets`.  Each data row `member :: label :: _` files `member` under
the namespaced complex name `pfx ++ "_" ++ label`; a row with fewer than
two fields raises `IndexError` on `line_content[1]`, modelled as `none`. -/
def loadComplexes (pfx : String) : List Row → List (String × List String) →
    Option (List (String × List String))
  | [], d => some d
  | (m :: lbl :: _) :: rest, d => loadComplexes pfx rest (dictAppend d (pfx ++ "_" ++ lbl) m)
  | _ :: _, _ => none

/-- Lines 186-197 of `complexDissect.py`: the scan of one experimental
complex member `m` across all model complexes.  The state is
`(max_so_far, any_conserved, members_counted)`; on a match,
`con_members_conserved` has just been reset to `0`, so `complex_con` is
`1 / len(model_complex)`. -/
def searchMember (m : String) (model : List (String × List String))
    (st : ℚ × Nat × List String) : ℚ × Nat × List String :=
  model.foldl
    (fun st c =>
      if m ∈ c.2 then
        ((if 1 / (c.2.length : ℚ) > st.1 then 1 / (c.2.length : ℚ) else st.1),
         (if m ∈ st.2.2 then st.2.1 else st.2.1 + 1),
         st.2.2 ++ [m])
      else st)
    st

/-- One iteration of the outer member loop (lines 185-197): scan the member
across the model with a freshly reset `members_counted`, keeping the
running maximum and `any_conserved`. -/
def scoreStep (model : List (String × List String)) (acc : ℚ × Nat) (m : String) : ℚ × Nat :=
  ((searchMember m model (acc.1, acc.2, [])).1,
   (searchMember m model (acc.1, acc.2, [])).2.1)

/-- Lines 183-199 of `complexDissect.py`: the conservation record
`(MaxComplexCon, SetCon)` computed for one experimental complex, given its
member list and the model dict.  `members_counted` is re-initialised for
every member occurrence, exactly as in the source. -/
def scoreComplex (members : List String) (model : List (String × List String)) : ℚ × ℚ :=
  ((members.foldl (scoreStep model) ((0 : ℚ), (0 : Nat))).1,
   ((members.foldl (scoreStep model) ((0 : ℚ), (0 : Nat))).2 : ℚ) / (members.length : ℚ))

/-- Lines 182-199 of `complexDissect.py`: one conservation record per
experimental complex, in dict order. -/
def compareRecords (expd model : List (String × List String)) :
    List (String × (ℚ × ℚ)) :=
  expd.map fun p => (p.1, scoreComplex p.2 model)

/-- The computational content of `compareSets` (lines 150-212): load both
files, then compare; `none` models an uncaught `IndexError` while loading. -/
def compareSets (name1 : String) (rows1 : List Row) (name2 : String) (rows2 : List Row) :
    Option (List (String × (ℚ × ℚ))) :=
  match loadComplexes name1 rows1 [], loadComplexes name2 rows2 [] with
  | some e, some m => some (compareRecords e m)
  | _, _ => none

/-- State built by the component-mapping loop of `compareSpecies`
(lines 486-494): `component_ogs`, `og_list` and `unmapped_components`. -/
structure SpeciesState where
  component_ogs : List (String × String)
  og_list : List String
  unmapped_components : List String
deriving DecidableEq

/-- One iteration of the loop at lines 486-494 of `complexDissect.py`: a
component found in `uniprot_to_og` records its OG in `component_ogs` and
(if new) appends it to `og_list`; a component not found is mapped to itself
in `component_ogs` and appended to `unmapped_components` — and `og_list`
is left untouched. -/
def mapStep (uniprot_to_og : List (String × String)) (st : SpeciesState) (c : String) :
    SpeciesState :=
  match dictGet c uniprot_to_og with
  | some og =>
      SpeciesState.mk (dictSet c og st.component_ogs)
        (if og ∈ st.og_list then st.og_list else st.og_list ++ [og])
        st.unmapped_components
  | none =>
      SpeciesState.mk (dictSet c c st.component_ogs)
        st.og_list
        (st.unmapped_components ++ [c])

/-- Lines 486-494 of `complexDissect.py`: map each unified component to its
orthologous group, starting from empty accumulators. -/
def mapComponents (unified : List String) (uniprot_to_og : List (String × String)) :
    SpeciesState :=
  unified.foldl (mapStep uniprot_to_og) (SpeciesState.mk [] [] [])

/-- Lines 506-509 of `complexDissect.py`: the row labels written to the
component-level conservation matrix file are exactly `og_list`. -/
def componentMatrixRows (st : SpeciesState) : List String := st.og_list

/-- Whether a member occurs in some model complex's member list
(`complex_member in model_complexes[model_complex]` for some model
complex). -/
def foundInModel (m : String) (model : List (String × List String)) : Bool :=
  model.any fun c => m ∈ c.2

/-- Written from the spec's words for `set_coverage` (§4.3 steps 2-3):
set semantics — the covered members form a set, each member of the
experimental complex counted at most once however often it occurs — then
divided by the length of the experimental member list. -/
def setCoverageSpec (members : List String) (model : List (String × List String)) : ℚ :=
  ((members.dedup.countP fun m => foundInModel m model : Nat) : ℚ) / (members.length : ℚ)

/-! ### Dictionary lemmas -/

theorem dictGet_dictSet_self {α : Type} (k : String) (v : α) (d : List (String × α)) :
    dictGet k (dictSet k v d) = some v := by
  induction d with
  | nil => simp [dictGet, dictSet]
  | cons p rest ih =>
    obtain ⟨a, b⟩ := p
    by_cases h : a = k
    · subst h
      simp [dictGet, dictSet]
    · simp [dictGet, dictSet, h, ih]

theorem dictGet_dictSet_ne {α : Type} {k k' : String} (hne : k' ≠ k) (v : α)
    (d : List (String × α)) : dictGet k (dictSet k' v d) = dictGet k d := by
  induction d with
  | nil => simp [dictGet, dictSet, hne]
  | cons p rest ih =>
    obtain ⟨a, b⟩ := p
    by_cases h : a = k'
    · subst h
      simp [dictGet, dictSet, hne]
    · simp [dictGet, dictSet, h, ih]

theorem mem_dictSet {α : Type} {k : String} {v : α} {d : List (String × α)}
    {p : String × α} (hp : p ∈ dictSet k v d) : p = (k, v) ∨ p ∈ d := by
  induction d with
  | nil => simpa [dictSet] using hp
  | cons q rest ih =>
    obtain ⟨a, b⟩ := q
    by_cases h : a = k
    · subst h
      simp only [dictSet, if_pos rfl] at hp
      rcases List.mem_cons.mp hp with h1 | h1
      · exact Or.inl h1
      · exact Or.inr (List.mem_cons_of_mem _ h1)
    · simp only [dictSet, if_neg h] at hp
      rcases List.mem_cons.mp hp with h1 | h1
      · exact Or.inr (h1 ▸ List.mem_cons_self _ _)
      · rcases ih h1 with h2 | h2
        · exact Or.inl h2
        · exact Or.inr (List.mem_cons_of_mem _ h2)

theorem dictKeys_dictSet {α : Type} (k : String) (v : α) (d : List (String × α)) :
    dictKeys (dictSet k v d) =
      if k ∈ dictKeys d then dictKeys d else dictKeys d ++ [k] := by
  induction d with
  | nil => simp [dictKeys, dictSet]
  | cons p rest ih =>
    obtain ⟨a, b⟩ := p
    by_cases h : a = k
    · subst h
      simp [dictSet, dictKeys]
    · have hka : ¬ k = a := fun hh => h hh.symm
      have ih' : List.map Prod.fst (dictSet k v rest) =
          if k ∈ List.map Prod.fst rest then List.map Prod.fst rest
          else List.map Prod.fst rest ++ [k] := ih
      by_cases h2 : k ∈ List.map Prod.fst rest
      · simp [dictSet, dictKeys, h, hka, h2, ih']
      · simp [dictSet, dictKeys, h, hka, h2, ih']

theorem nodup_dictKeys_dictSet {α : Type} (k : String) (v : α) {d : List (String × α)}
    (hd : (dictKeys d).Nodup) : (dictKeys (dictSet k v d)).Nodup := by
  rw [dictKeys_dictSet]
  by_cases h : k ∈ dictKeys d
  · simpa [h] using hd
  · simp [h, List.nodup_append, hd]

theorem dictGet_eq_none {α : Type} {k : String} {d : List (String × α)}
    (h : k ∉ dictKeys d) : dictGet k d = none := by
  induction d with
  | nil => simp [dictGet]
  | cons p rest ih =>
    obtain ⟨a, b⟩ := p
    simp only [dictKeys, List.map_cons, List.mem_cons, not_or] at h
    have h1 : ¬ (a = k) := fun hh => h.1 hh.symm
    simp only [dictGet, if_neg h1]
    exact ih h.2

theorem dictSet_fresh {α : Type} {k : String} (v : α) {d : List (String × α)}
    (h : k ∉ dictKeys d) : dictSet k v d = d ++ [(k, v)] := by
  induction d with
  | nil => simp [dictSet]
  | cons p rest ih =>
    obtain ⟨a, b⟩ := p
    simp only [dictKeys, List.map_cons, List.mem_cons, not_or] at h
    have h1 : ¬ (a = k) := fun hh => h.1 hh.symm
    simp only [dictSet, if_neg h1, List.cons_append, List.cons.injEq, true_and]
    exact ih h.2

theorem dictGet_append_last {α : Type} {k : String} (v : α) {d : List (String × α)}
    (h : k ∉ dictKeys d) : dictGet k (d ++ [(k, v)]) = some v := by
  induction d with
  | nil => simp [dictGet]
  | cons p rest ih =>
    obtain ⟨a, b⟩ := p
    simp only [dictKeys, List.map_cons, List.mem_cons, not_or] at h
    have h1 : ¬ (a = k) := fun hh => h.1 hh.symm
    simp only [List.cons_append, dictGet, if_neg h1]
    exact ih h.2

theorem dictSet_append_last {α : Type} {k : String} (v w : α) {d : List (String × α)}
    (h : k ∉ dictKeys d) : dictSet k w (d ++ [(k, v)]) = d ++ [(k, w)] := by
  induction d with
  | nil => simp [dictSet]
  | cons p rest ih =>
    obtain ⟨a, b⟩ := p
    simp only [dictKeys, List.map_cons, List.mem_cons, not_or] at h
    have h1 : ¬ (a = k) := fun hh => h.1 hh.symm
    simp only [List.cons_append, dictSet, if_neg h1, List.cons.injEq, true_and]
    exact ih h.2

theorem dictAppend_fresh {k : String} (m : String) {d : List (String × List String)}
    (h : k ∉ dictKeys d) : dictAppend d k m = d ++ [(k, [m])] := by
  rw [dictAppend, dictGet_eq_none h]
  exact dictSet_fresh [m] h

theorem dictAppend_last {k : String} (v : List String) (m : String)
    {d : List (String × List String)} (h : k ∉ dictKeys d) :
    dictAppend (d ++ [(k, v)]) k m = d ++ [(k, v ++ [m])] := by
  rw [dictAppend, dictGet_append_last v h]
  exact dictSet_append_last v (v ++ [m]) h

/-! ### Converter and loader lemmas -/

theorem convertToLongDict_eq_none_iff (rows : List Row) (d : List (String × List String)) :
    convertToLongDict rows d = none ↔ [] ∈ rows := by
  induction rows generalizing d with
  | nil => simp [convertToLongDict]
  | cons r rest ih =>
    cases r with
    | nil => simp [convertToLongDict]
    | cons label members => simp [convertToLongDict, ih]

theorem convertToLongDict_append {xs : List Row} {acc acc' : List (String × List String)}
    (h : convertToLongDict xs acc = some acc') (ys : List Row) :
    convertToLongDict (xs ++ ys) acc = convertToLongDict ys acc' := by
  induction xs generalizing acc with
  | nil =>
    simp only [convertToLongDict] at h
    cases h
    simp
  | cons r rest ih =>
    cases r with
    | nil => simp [convertToLongDict] at h
    | cons label members =>
      simp only [convertToLongDict] at h
      simpa [convertToLongDict] using ih h

theorem convertToLongDict_nodup {rows : List Row} {acc d : List (String × List String)}
    (hacc : (dictKeys acc).Nodup) (h : convertToLongDict rows acc = some d) :
    (dictKeys d).Nodup := by
  induction rows generalizing acc with
  | nil =>
    simp only [convertToLongDict] at h
    cases h
    exact hacc
  | cons r rest ih =>
    cases r with
    | nil => simp [convertToLongDict] at h
    | cons label members =>
      simp only [convertToLongDict] at h
      exact ih (nodup_dictKeys_dictSet label members hacc) h

theorem convertToLongDict_values_ne_nil {rows : List Row} {acc d : List (String × List String)}
    (hrows : ∀ r ∈ rows, 2 ≤ r.length) (hacc : ∀ p ∈ acc, p.2 ≠ [])
    (h : convertToLongDict rows acc = some d) : ∀ p ∈ d, p.2 ≠ [] := by
  induction rows generalizing acc with
  | nil =>
    simp only [convertToLongDict] at h
    cases h
    exact hacc
  | cons r rest ih =>
    cases r with
    | nil => simp [convertToLongDict] at h
    | cons label members =>
      simp only [convertToLongDict] at h
      refine ih (fun r hr => hrows r (List.mem_cons_of_mem _ hr)) ?_ h
      intro p hp
      rcases mem_dictSet hp with h1 | h1
      · subst h1
        have hlen := hrows (label :: members) (List.mem_cons_self _ _)
        intro hnil
        have hm : members = [] := hnil
        rw [hm] at hlen
        simp at hlen
      · exact hacc p h1

theorem convertToLongDict_get_preserved {lbl : String} {rows : List Row}
    (hne : [] ∉ rows) (hlbl : ∀ r ∈ rows, r.head? ≠ some lbl)
    (acc : List (String × List String)) :
    ∃ d, convertToLongDict rows acc = some d ∧ dictGet lbl d = dictGet lbl acc := by
  induction rows generalizing acc with
  | nil => exact ⟨acc, rfl, rfl⟩
  | cons r rest ih =>
    cases r with
    | nil => simp at hne
    | cons label members =>
      have hlab : label ≠ lbl := by
        have := hlbl (label :: members) (List.mem_cons_self _ _)
        simpa using this
      obtain ⟨d, hd, hget⟩ := ih (fun hh => hne (List.mem_cons_of_mem _ hh))
        (fun r hr => hlbl r (List.mem_cons_of_mem _ hr)) (dictSet label members acc)
      refine ⟨d, by simpa [convertToLongDict] using hd, ?_⟩
      rw [hget, dictGet_dictSet_ne hlab]

theorem longPairs_cons (k : String) (ms : List String) (rest : List (String × List String)) :
    longPairs ((k, ms) :: rest) = (ms.map fun m => (m, k)) ++ longPairs rest := by
  simp [longPairs]

theorem filter_pair_block (ms : List String) (k lbl : String) :
    (ms.map fun m => (m, k)).filter (fun q => q.2 = lbl) =
      if k = lbl then ms.map (fun m => (m, lbl)) else [] := by
  induction ms with
  | nil => simp
  | cons m rest ih =>
    by_cases hk : k = lbl
    · subst hk
      simp [ih]
    · simp [hk, ih]

theorem filter_longPairs_not_mem {lbl : String} {d : List (String × List String)}
    (h : lbl ∉ dictKeys d) :
    (longPairs d).filter (fun q => q.2 = lbl) = [] := by
  induction d with
  | nil => simp [longPairs]
  | cons p rest ih =>
    obtain ⟨k, ms⟩ := p
    simp only [dictKeys, List.map_cons, List.mem_cons, not_or] at h
    have h1 : ¬ (k = lbl) := fun hh => h.1 hh.symm
    have ih' := ih (by simpa [dictKeys] using h.2)
    rw [longPairs_cons, List.filter_append, filter_pair_block, if_neg h1, ih']
    simp

theorem filter_longPairs {lbl : String} {d : List (String × List String)} {v : List String}
    (hnd : (dictKeys d).Nodup) (h : dictGet lbl d = some v) :
    (longPairs d).filter (fun q => q.2 = lbl) = v.map (fun m => (m, lbl)) := by
  induction d with
  | nil => simp [dictGet] at h
  | cons p rest ih =>
    obtain ⟨k, ms⟩ := p
    simp only [dictKeys, List.map_cons, List.nodup_cons] at hnd
    by_cases hk : k = lbl
    · subst hk
      have hv : ms = v := by simpa [dictGet] using h
      subst hv
      have hrest : (longPairs rest).filter (fun q => q.2 = k) = [] :=
        filter_longPairs_not_mem (by simpa [dictKeys] using hnd.1)
      rw [longPairs_cons, List.filter_append, filter_pair_block, if_pos rfl, hrest]
      simp
    · simp only [dictGet, if_neg hk] at h
      have ih' := ih hnd.2 h
      rw [longPairs_cons, List.filter_append, filter_pair_block, if_neg hk, ih']
      simp

theorem loadComplexes_append {pfx : String} {xs : List Row}
    {acc acc' : List (String × List String)}
    (h : loadComplexes pfx xs acc = some acc') (ys : List Row) :
    loadComplexes pfx (xs ++ ys) acc = loadComplexes pfx ys acc' := by
  induction xs generalizing acc with
  | nil =>
    simp only [loadComplexes] at h
    cases h
    simp
  | cons r rest ih =>
    match r with
    | [] => simp [loadComplexes] at h
    | [m] => simp [loadComplexes] at h
    | m :: lbl :: extra =>
      simp only [loadComplexes] at h
      simpa [loadComplexes] using ih h

theorem loadComplexes_values_ne_nil {pfx : String} {rows : List Row}
    {acc d : List (String × List String)}
    (hacc : ∀ p ∈ acc, p.2 ≠ []) (h : loadComplexes pfx rows acc = some d) :
    ∀ p ∈ d, p.2 ≠ [] := by
  induction rows generalizing acc with
  | nil =>
    simp only [loadComplexes] at h
    cases h
    exact hacc
  | cons r rest ih =>
    match r with
    | [] => simp [loadComplexes] at h
    | [m] => simp [loadComplexes] at h
    | m :: lbl :: extra =>
      simp only [loadComplexes] at h
      refine ih ?_ h
      intro p hp
      rw [dictAppend] at hp
      rcases hget : dictGet (pfx ++ "_" ++ lbl) acc with _ | ms
      · rw [hget] at hp
        rcases mem_dictSet hp with h1 | h1
        · subst h1
          simp
        · exact hacc p h1
      · rw [hget] at hp
        rcases mem_dictSet hp with h1 | h1
        · subst h1
          simp
        · exact hacc p h1

theorem loadComplexes_block {pfx lbl : String} (ms : List String)
    {acc : List (String × List String)} (v : List String)
    (h : (pfx ++ "_" ++ lbl) ∉ dictKeys acc) :
    loadComplexes pfx (ms.map fun m => [m, lbl]) (acc ++ [(pfx ++ "_" ++ lbl, v)]) =
      some (acc ++ [(pfx ++ "_" ++ lbl, v ++ ms)]) := by
  induction ms generalizing v with
  | nil => simp [loadComplexes]
  | cons m rest ih =>
    simp only [List.map_cons, loadComplexes, dictAppend_last v m h]
    rw [ih (v ++ [m])]
    simp

theorem loadComplexes_block_start {pfx lbl : String} (m : String) (ms : List String)
    {acc : List (String × List String)} (h : (pfx ++ "_" ++ lbl) ∉ dictKeys acc) :
    loadComplexes pfx ((m :: ms).map fun x => [x, lbl]) acc =
      some (acc ++ [(pfx ++ "_" ++ lbl, m :: ms)]) := by
  simp only [List.map_cons, loadComplexes, dictAppend_fresh m h]
  rw [loadComplexes_block ms [m] h]
  simp

theorem loadComplexes_flatten {pfx : String} :
    ∀ (d acc : List (String × List String)),
    (∀ p ∈ d, p.2 ≠ []) →
    (∀ p ∈ d, (pfx ++ "_" ++ p.1) ∉ dictKeys acc) →
    (d.map fun p => pfx ++ "_" ++ p.1).Nodup →
    loadComplexes pfx (d.flatMap fun p => p.2.map fun m => [m, p.1]) acc =
      some (acc ++ d.map fun p => (pfx ++ "_" ++ p.1, p.2))
  | [], acc, _, _, _ => by simp [loadComplexes]
  | (lbl, ms) :: rest, acc, hv, hk, hnd => by
    have hms : ms ≠ [] := hv (lbl, ms) (List.mem_cons_self _ _)
    match ms, hms with
    | m :: ms', _ =>
      have hfresh : (pfx ++ "_" ++ lbl) ∉ dictKeys acc :=
        hk (lbl, m :: ms') (List.mem_cons_self _ _)
      have hblock := loadComplexes_block_start m ms' hfresh
      simp only [List.flatMap_cons]
      rw [loadComplexes_append hblock]
      simp only [List.map_cons, List.nodup_cons] at hnd
      have hrest := loadComplexes_flatten rest (acc ++ [(pfx ++ "_" ++ lbl, m :: ms')])
        (fun p hp => hv p (List.mem_cons_of_mem _ hp))
        (by
          intro p hp
          simp only [dictKeys, List.map_append, List.map_cons, List.map_nil,
            List.mem_append, List.mem_cons, not_or]
          refine ⟨?_, ?_, by simp⟩
          · have := hk p (List.mem_cons_of_mem _ hp)
            simpa [dictKeys] using this
          · intro heq
            exact hnd.1 (heq ▸ List.mem_map_of_mem (fun q => pfx ++ "_" ++ q.1) hp))
        hnd.2
      rw [hrest]
      simp

theorem prefix_inj (pfx : String) {a b : String}
    (h : pfx ++ "_" ++ a = pfx ++ "_" ++ b) : a = b := by
  have hd := congrArg String.data h
  simp only [String.data_append] at hd
  have := List.append_cancel_left hd
  exact String.ext this

/-! ### Lemmas about the comparison loop -/

theorem searchMember_any (m : String) :
    ∀ (model : List (String × List String)) (mc : ℚ) (ac : Nat) (counted : List String),
    (searchMember m model (mc, ac, counted)).2.1 =
      if m ∈ counted then ac else if foundInModel m model then ac + 1 else ac
  | [], mc, ac, counted => by simp [searchMember, foundInModel]
  | c :: rest, mc, ac, counted => by
    by_cases hm : m ∈ c.2
    · have hstep : searchMember m (c :: rest) (mc, ac, counted) =
        searchMember m rest
          ((if 1 / (c.2.length : ℚ) > mc then 1 / (c.2.length : ℚ) else mc),
           (if m ∈ counted then ac else ac + 1), counted ++ [m]) := by
        simp [searchMember, hm]
      rw [hstep, searchMember_any m rest]
      have hmem : m ∈ counted ++ [m] := by simp
      rw [if_pos hmem]
      by_cases hc : m ∈ counted
      · simp [hc]
      · simp [hc, foundInModel, hm]
    · have hstep : searchMember m (c :: rest) (mc, ac, counted) =
        searchMember m rest (mc, ac, counted) := by
        simp [searchMember, hm]
      rw [hstep, searchMember_any m rest]
      by_cases hc : m ∈ counted
      · simp [hc]
      · simp only [if_neg hc]
        simp only [foundInModel, List.any_cons, decide_eq_false hm, Bool.false_or]

theorem searchMember_nomatch {m : String} :
    ∀ {model : List (String × List String)}, (∀ c ∈ model, m ∉ c.2) →
    ∀ (st : ℚ × Nat × List String), searchMember m model st = st
  | [], _, _st => rfl
  | c :: rest, h, st => by
    have hm : m ∉ c.2 := h c (List.mem_cons_self _ _)
    have hstep : searchMember m (c :: rest) st = searchMember m rest st := by
      simp [searchMember, hm]
    rw [hstep]
    exact searchMember_nomatch (fun c' hc' => h c' (List.mem_cons_of_mem _ hc')) st

theorem foldl_scoreStep_snd (model : List (String × List String)) :
    ∀ (members : List String) (p : ℚ × Nat),
    (members.foldl (scoreStep model) p).2 =
      p.2 + members.countP (fun m => foundInModel m model)
  | [], p => by simp
  | m :: rest, p => by
    simp only [List.foldl_cons]
    rw [foldl_scoreStep_snd model rest]
    have h2 : (scoreStep model p m).2 = if foundInModel m model then p.2 + 1 else p.2 := by
      show (searchMember m model (p.1, p.2, [])).2.1 = _
      rw [searchMember_any]
      simp
    rw [h2, List.countP_cons]
    by_cases hf : foundInModel m model
    · simp [hf]
      omega
    · simp [hf]

theorem scoreComplex_snd (members : List String) (model : List (String × List String)) :
    (scoreComplex members model).2 =
      ((members.countP fun m => foundInModel m model : Nat) : ℚ) / (members.length : ℚ) := by
  show ((members.foldl (scoreStep model) ((0 : ℚ), (0 : Nat))).2 : ℚ) / _ = _
  rw [foldl_scoreStep_snd]
  simp

theorem scoreComplex_nomatch {members : List String} {model : List (String × List String)}
    (h : ∀ m ∈ members, ∀ c ∈ model, m ∉ c.2) :
    scoreComplex members model = (0, 0) := by
  have hfold : ∀ (ms : List String), (∀ m ∈ ms, ∀ c ∈ model, m ∉ c.2) →
      ∀ (p : ℚ × Nat), ms.foldl (scoreStep model) p = p := by
    intro ms
    induction ms with
    | nil => intro _ p; rfl
    | cons m rest ih =>
      intro hms p
      have hstep : scoreStep model p m = p := by
        show ((searchMember m model (p.1, p.2, [])).1,
          (searchMember m model (p.1, p.2, [])).2.1) = p
        rw [searchMember_nomatch (hms m (List.mem_cons_self _ _))]
      simp only [List.foldl_cons, hstep]
      exact ih (fun x hx => hms x (List.mem_cons_of_mem _ hx)) p
  rw [scoreComplex, hfold members h]
  simp

theorem foundInModel_iff (m : String) (model : List (String × List String)) :
    foundInModel m model = true ↔ ∃ c ∈ model, m ∈ c.2 := by
  simp [foundInModel]

/-! ### Lemmas about the species mapping loop -/

theorem mapStep_preserves {conv : List (String × String)} {c : String}
    (hnone : dictGet c conv = none) {st : SpeciesState}
    (h : c ∈ st.unmapped_components ∧ dictGet c st.component_ogs = some c)
    (c' : String) :
    c ∈ (mapStep conv st c').unmapped_components ∧
      dictGet c (mapStep conv st c').component_ogs = some c := by
  by_cases hcc : c' = c
  · subst hcc
    rw [mapStep, hnone]
    exact ⟨List.mem_append_left _ h.1, dictGet_dictSet_self _ _ _⟩
  · rcases hget : dictGet c' conv with _ | og
    · rw [mapStep, hget]
      exact ⟨List.mem_append_left _ h.1, by rw [dictGet_dictSet_ne hcc, h.2]⟩
    · rw [mapStep, hget]
      exact ⟨h.1, by rw [dictGet_dictSet_ne hcc, h.2]⟩

theorem mapStep_establishes {conv : List (String × String)} {c : String}
    (hnone : dictGet c conv = none) (st : SpeciesState) :
    c ∈ (mapStep conv st c).unmapped_components ∧
      dictGet c (mapStep conv st c).component_ogs = some c := by
  rw [mapStep, hnone]
  exact ⟨by simp, dictGet_dictSet_self _ _ _⟩

theorem foldl_mapStep_preserves {conv : List (String × String)} {c : String}
    (hnone : dictGet c conv = none) :
    ∀ (l : List String) (st : SpeciesState),
    (c ∈ st.unmapped_components ∧ dictGet c st.component_ogs = some c) →
    c ∈ (l.foldl (mapStep conv) st).unmapped_components ∧
      dictGet c (l.foldl (mapStep conv) st).component_ogs = some c
  | [], st, h => h
  | c' :: rest, st, h =>
    foldl_mapStep_preserves hnone rest (mapStep conv st c') (mapStep_preserves hnone h c')

theorem foldl_mapStep_mem {conv : List (String × String)} {c : String}
    (hnone : dictGet c conv = none) :
    ∀ (l : List String) (st : SpeciesState), c ∈ l →
    c ∈ (l.foldl (mapStep conv) st).unmapped_components ∧
      dictGet c (l.foldl (mapStep conv) st).component_ogs = some c
  | c' :: rest, st, hmem => by
    rcases List.mem_cons.mp hmem with h | h
    · subst h
      exact foldl_mapStep_preserves hnone rest _ (mapStep_establishes hnone st)
    · exact foldl_mapStep_mem hnone rest (mapStep conv st c') h

/-! ### Claims -/

/-- C1: at the spec's concrete scenario (experimental {A: [P1,P2], B: [P3]},
model {X: [P1,P2,P4], Y: [P3]}) the code produces the record (1/3, 1.0) for
A, not the (2/3, 1.0) the claim states: because `con_members_conserved` is
re-initialised to 0 for every model complex inside the per-member loop, the
per-complex overlap the code computes is always `1 / len(model_complex)`,
never an accumulated `matched / len(model_complex)`. -/
theorem C1_scenario_eval :
    compareSets "e" [["P1", "A"], ["P2", "A"], ["P3", "B"]] "m"
        [["P1", "X"], ["P2", "X"], ["P4", "X"], ["P3", "Y"]] =
      some [("e_A", ((1 : ℚ)/3, 1)), ("e_B", (1, 1))] ∧ ((1 : ℚ)/3) ≠ 2/3 := by
  constructor
  · simp +decide [compareSets, loadComplexes, dictAppend, dictGet, dictSet, compareRecords,
      scoreComplex, scoreStep, searchMember]
  · norm_num

/-- C2 counterexample: the component "P9", absent from the ID-to-OG map, is
counted as unmapped and self-mapped in `component_ogs`, but the
component-level matrix rows (which are exactly `og_list`) are empty, so it
does not surface in the matrix, contrary to the claim. -/
theorem C2_counterexample :
    (mapComponents ["P9"] []).unmapped_components = ["P9"] ∧
    dictGet "P9" (mapComponents ["P9"] []).component_ogs = some "P9" ∧
    componentMatrixRows (mapComponents ["P9"] []) = [] ∧
    "P9" ∉ componentMatrixRows (mapComponents ["P9"] []) := by
  refine ⟨rfl, by decide, rfl, by decide⟩

/-- C2 (amended): every experimental component with no entry in the
ID-to-OG map is counted in `unmapped_components` and mapped to itself as a
degenerate single-member group in `component_ogs`; it is however not added
to `og_list`, which is what the component-level matrix emits as rows. -/
theorem C2_unmapped_selfmap (unified : List String) (conv : List (String × String))
    (c : String) (hc : c ∈ unified) (hnone : dictGet c conv = none) :
    c ∈ (mapComponents unified conv).unmapped_components ∧
      dictGet c (mapComponents unified conv).component_ogs = some c :=
  foldl_mapStep_mem hnone unified (SpeciesState.mk [] [] []) hc

/-- C2 witness: the amended statement instantiated at the counterexample
input. -/
theorem C2_unmapped_selfmap_witness :
    "P9" ∈ (["P9"] : List String) ∧
    dictGet "P9" ([] : List (String × String)) = none ∧
    ("P9" ∈ (mapComponents ["P9"] []).unmapped_components ∧
      dictGet "P9" (mapComponents ["P9"] []).component_ogs = some "P9") :=
  ⟨by decide, rfl, C2_unmapped_selfmap ["P9"] [] "P9" (by decide) rfl⟩

/-- C3: with identical experimental and model sets (same raw label A, same
members [P1, P2]) the code yields max_complex_overlap 1/2, not the 1.0 the
claim states — the same accumulator-reset slip as in C1 caps every
per-complex overlap at `1 / len(model_complex)`. -/
theorem C3_identical_eval :
    compareSets "e" [["P1", "A"], ["P2", "A"]] "m" [["P1", "A"], ["P2", "A"]] =
      some [("e_A", ((1 : ℚ)/2, 1))] ∧ ((1 : ℚ)/2) ≠ 1 := by
  constructor
  · simp +decide [compareSets, loadComplexes, dictAppend, dictGet, dictSet, compareRecords,
      scoreComplex, scoreStep, searchMember]
  · norm_num

/-- C4 counterexample: for experimental member list [P1, P1] against model
{m_X: [P1]} the code computes set_coverage 1.0, whereas the claimed set
semantics (covered-set size divided by list length) gives 1/2: the
`members_counted` guard is re-initialised for every member occurrence, so a
duplicated member is counted twice. -/
theorem C4_counterexample :
    (scoreComplex ["P1", "P1"] [("m_X", ["P1"])]).2 = 1 ∧
    setCoverageSpec ["P1", "P1"] [("m_X", ["P1"])] = 1/2 ∧ (1 : ℚ) ≠ 1/2 := by
  refine ⟨?_, ?_, by norm_num⟩
  · simp +decide [scoreComplex, scoreStep, searchMember]
  · simp +decide [setCoverageSpec, foundInModel, List.dedup_cons_of_mem]

/-- C4 (amended): set_coverage counts member occurrences, not distinct
members: each occurrence in the experimental member list is counted at most
once across all model complexes (the `members_counted` guard), and
set_coverage equals the number of occurrences found in some model complex
divided by the length of the member list. -/
theorem C4_occurrence_coverage (members : List String)
    (model : List (String × List String)) :
    (scoreComplex members model).2 =
      ((members.countP fun m => foundInModel m model : Nat) : ℚ) / (members.length : ℚ) :=
  scoreComplex_snd members model

/-- C5 counterexample: a data row with exactly one field (a complex label
with zero members) does not make `convertToLong` fail; the conversion
succeeds and simply emits no rows for that label. -/
theorem C5_counterexample :
    convertToLong [["A"]] = some [] ∧ convertToLong [["A"]] ≠ none := by
  refine ⟨by decide, by decide⟩

/-- C5 (amended): `convertToLong` fails (an uncaught `IndexError` on
`line_content[0]`, modelled as `none`) exactly on inputs containing a row
with zero fields; a one-field row (label with zero members) is accepted and
contributes no output rows. -/
theorem C5_fail_iff_empty_row (rows : List Row) :
    convertToLong rows = none ↔ [] ∈ rows := by
  rw [convertToLong, Option.map_eq_none', convertToLongDict_eq_none_iff]

/-- C6: converting a well-formed short-format input (every row a label with
at least one member, i.e. at least 2 fields) and then loading the produced
long-format rows with the loading phase of `compareSets` reconstructs the
original complex-to-members grouping, up to the loader's namespace
prefixing of complex labels. -/
theorem C6_roundtrip (pfx : String) (rows : List Row)
    (h : ∀ r ∈ rows, 2 ≤ r.length) :
    ∃ d, convertToLongDict rows [] = some d ∧
      convertToLong rows = some (longPairs d) ∧
      loadComplexes pfx ((longPairs d).map fun q => [q.1, q.2]) [] =
        some (d.map fun p => (pfx ++ "_" ++ p.1, p.2)) := by
  have hnonil : [] ∉ rows := by
    intro hmem
    have := h [] hmem
    simp at this
  rcases hconv : convertToLongDict rows [] with _ | d
  · exact absurd ((convertToLongDict_eq_none_iff rows []).mp hconv) hnonil
  refine ⟨d, rfl, by rw [convertToLong, hconv]; rfl, ?_⟩
  have hrows : ((longPairs d).map fun q => [q.1, q.2]) =
      d.flatMap fun p => p.2.map fun m => [m, p.1] := by
    rw [longPairs, List.map_flatMap]
    congr 1
    funext p
    rw [List.map_map]
    rfl
  rw [hrows]
  have hnd : (dictKeys d).Nodup := convertToLongDict_nodup (by simp [dictKeys]) hconv
  have hvals : ∀ p ∈ d, p.2 ≠ [] :=
    convertToLongDict_values_ne_nil h (by simp) hconv
  have hmap : (d.map fun p => pfx ++ "_" ++ p.1).Nodup := by
    have heq : (d.map fun p => pfx ++ "_" ++ p.1) =
        (dictKeys d).map (fun s => pfx ++ "_" ++ s) := by
      rw [dictKeys, List.map_map]
      rfl
    rw [heq]
    exact hnd.map (fun a b hab => prefix_inj pfx hab)
  have hload := loadComplexes_flatten d [] hvals
    (by
      intro p hp
      simp [dictKeys])
    hmap
  simpa using hload

/-- C6 witness: the round trip at a concrete two-complex short file. -/
theorem C6_roundtrip_witness :
    ∃ d, convertToLongDict [["A", "P1", "P2"], ["B", "P3"]] [] = some d ∧
      convertToLong [["A", "P1", "P2"], ["B", "P3"]] = some (longPairs d) ∧
      loadComplexes "e" ((longPairs d).map fun q => [q.1, q.2]) [] =
        some (d.map fun p => ("e" ++ "_" ++ p.1, p.2)) :=
  C6_roundtrip "e" [["A", "P1", "P2"], ["B", "P3"]] (by decide)

/-- C7: adding members to a model complex that already shares a member with
the experimental complex never decreases the experimental complex's
set_coverage. -/
theorem C7_coverage_mono (members ms extra : List String) (k : String)
    (pre post : List (String × List String))
    (hshare : ∃ m ∈ members, m ∈ ms) :
    (scoreComplex members (pre ++ (k, ms) :: post)).2 ≤
      (scoreComplex members (pre ++ (k, ms ++ extra) :: post)).2 := by
  rw [scoreComplex_snd, scoreComplex_snd]
  obtain ⟨m0, hm0, _⟩ := hshare
  have hne : members ≠ [] := List.ne_nil_of_mem hm0
  have hlen : (0 : ℚ) < (members.length : ℚ) := by
    exact_mod_cast List.length_pos.mpr hne
  rw [div_le_div_iff_of_pos_right hlen]
  have hmono : members.countP (fun m => foundInModel m (pre ++ (k, ms) :: post)) ≤
      members.countP (fun m => foundInModel m (pre ++ (k, ms ++ extra) :: post)) := by
    apply List.countP_mono_left
    intro x _ hpx
    have hx : ∃ c ∈ pre ++ (k, ms) :: post, x ∈ c.2 :=
      (foundInModel_iff x _).mp hpx
    apply (foundInModel_iff x _).mpr
    obtain ⟨c, hc, hxc⟩ := hx
    rcases List.mem_append.mp hc with hc1 | hc2
    · exact ⟨c, List.mem_append_left _ hc1, hxc⟩
    · rcases List.mem_cons.mp hc2 with hc3 | hc4
      · refine ⟨(k, ms ++ extra), List.mem_append_right _ (List.mem_cons_self _ _), ?_⟩
        rw [hc3] at hxc
        exact List.mem_append_left _ hxc
      · exact ⟨c, List.mem_append_right _ (List.mem_cons_of_mem _ hc4), hxc⟩
  exact_mod_cast hmono

/-- C7 witness: growing the model complex m_X from [P1] to [P1, P2] does
not decrease the coverage of the experimental member list [P1]. -/
theorem C7_coverage_mono_witness :
    (scoreComplex ["P1"] ([] ++ ("m_X", ["P1"]) :: [])).2 ≤
      (scoreComplex ["P1"] ([] ++ ("m_X", ["P1"] ++ ["P2"]) :: [])).2 :=
  C7_coverage_mono ["P1"] ["P1"] ["P2"] "m_X" [] [] ⟨"P1", by decide, by decide⟩

/-- C8: an experimental complex none of whose members occurs in any model
complex gets the record exactly (0.0, 0.0). -/
theorem C8_no_overlap_zero (expd model : List (String × List String))
    (name : String) (members : List String)
    (hmem : (name, members) ∈ expd)
    (hno : ∀ m ∈ members, ∀ c ∈ model, m ∉ c.2) :
    (name, ((0 : ℚ), (0 : ℚ))) ∈ compareRecords expd model := by
  rw [compareRecords]
  have hz : ((name, members).1, scoreComplex (name, members).2 model) =
      (name, ((0 : ℚ), (0 : ℚ))) := by
    simp [scoreComplex_nomatch hno]
  exact hz ▸ List.mem_map_of_mem _ hmem

/-- C8 witness: the spec's scenario, experimental {C: [P5]} against model
{Z: [P6]}, yields the record (0.0, 0.0). -/
theorem C8_no_overlap_zero_witness :
    ("e_C", ((0 : ℚ), (0 : ℚ))) ∈ compareRecords [("e_C", ["P5"])] [("m_Z", ["P6"])] :=
  C8_no_overlap_zero [("e_C", ["P5"])] [("m_Z", ["P6"])] "e_C" ["P5"]
    (by decide) (by decide)

/-- C9: on a well-formed input (every row with at least 2 fields) the
loading phase of `compareSets` only produces complexes with non-empty
member lists, so the set_coverage divisor — the length of an experimental
member list, cast to the rationals — is never zero. -/
theorem C9_loader_values_nonempty (pfx : String) (rows : List Row)
    (d : List (String × List String))
    (hrows : ∀ r ∈ rows, 2 ≤ r.length)
    (h : loadComplexes pfx rows [] = some d) :
    ∀ p ∈ d, p.2 ≠ [] ∧ ((p.2.length : ℚ) ≠ 0) := by
  intro p hp
  have h1 := loadComplexes_values_ne_nil (by simp) h p hp
  refine ⟨h1, ?_⟩
  intro hq
  rw [Nat.cast_eq_zero, List.length_eq_zero] at hq
  exact h1 hq

/-- C9 witness: the statement at a concrete one-row file. -/
theorem C9_loader_values_nonempty_witness :
    ("e_A", ["P1"]).2 ≠ [] ∧ ((("e_A", ["P1"]).2.length : ℚ) ≠ 0) :=
  C9_loader_values_nonempty "e" [["P1", "A"]] [("e_A", ["P1"])] (by decide) (by decide)
    ("e_A", ["P1"]) (by decide)

/-- C10: when a short-format input has two rows with the same complex
label, only the members of the last such row reach the long-format output:
the built dict maps the label to the last row's members, and the output
rows carrying that label are exactly that row's members. -/
theorem C10_last_row_wins (pre mid post : List Row) (lbl : String)
    (ms1 ms2 : List String)
    (hnoe : [] ∉ pre ∧ [] ∉ mid ∧ [] ∉ post)
    (hpost : ∀ r ∈ post, r.head? ≠ some lbl) :
    ∃ d, convertToLongDict (pre ++ (lbl :: ms1) :: mid ++ (lbl :: ms2) :: post) [] = some d ∧
      dictGet lbl d = some ms2 ∧
      (longPairs d).filter (fun q => q.2 = lbl) = ms2.map fun m => (m, lbl) := by
  have hassoc : pre ++ (lbl :: ms1) :: mid ++ (lbl :: ms2) :: post =
      (pre ++ (lbl :: ms1) :: mid) ++ ((lbl :: ms2) :: post) := by
    simp
  have hnonil1 : [] ∉ pre ++ (lbl :: ms1) :: mid := by
    intro hmem
    rcases List.mem_append.mp hmem with h1 | h1
    · exact hnoe.1 h1
    · rcases List.mem_cons.mp h1 with h2 | h2
      · exact List.cons_ne_nil _ _ h2.symm
      · exact hnoe.2.1 h2
  rcases hconv : convertToLongDict (pre ++ (lbl :: ms1) :: mid) [] with _ | acc0
  · exact absurd ((convertToLongDict_eq_none_iff _ []).mp hconv) hnonil1
  obtain ⟨d, hd, hget⟩ := convertToLongDict_get_preserved hnoe.2.2 hpost
    (dictSet lbl ms2 acc0)
  have hstep : convertToLongDict ((lbl :: ms2) :: post) acc0 = some d := by
    simpa [convertToLongDict] using hd
  have hfull : convertToLongDict (pre ++ (lbl :: ms1) :: mid ++ (lbl :: ms2) :: post) [] =
      some d := by
    rw [hassoc, convertToLongDict_append hconv, hstep]
  have hlbl : dictGet lbl d = some ms2 := by
    rw [hget, dictGet_dictSet_self]
  have hnd : (dictKeys d).Nodup := convertToLongDict_nodup (by simp [dictKeys]) hfull
  exact ⟨d, hfull, hlbl, filter_longPairs hnd hlbl⟩

/-- C10 witness: two rows labelled A; the dict and the long output carry
only the second row's members P2, P3. -/
theorem C10_last_row_wins_witness :
    ∃ d, convertToLongDict ([] ++ ("A" :: ["P1"]) :: [] ++ ("A" :: ["P2", "P3"]) :: []) []
        = some d ∧
      dictGet "A" d = some ["P2", "P3"] ∧
      (longPairs d).filter (fun q => q.2 = "A") = ["P2", "P3"].map fun m => (m, "A") :=
  C10_last_row_wins [] [] [] "A" ["P1"] ["P2", "P3"]
    ⟨by decide, by decide, by decide⟩ (by decide)

end ComplexDissect
